import Mathlib

/-!
# Verification of the deckit decorator library

Shallow embedding of the repository's decorator logic:

* `src/lib/decorators/check-decorator.ts` — the `Check` guard decorator
  (method mode and class mode);
* `src/lib/decorators/validation-decorator.ts` — `formDataToObject` and the
  `ZodValidate` validation decorator.

JavaScript values are modelled by the inductive type `Val`; the outcome of
calling a JavaScript function is a `JsResult`: either a plain (synchronous)
value/throw, or a promise that resolves/rejects.  Awaiting either kind of
outcome yields an `Except Val Val` (`settle`).  Side effects relevant to the
claims (invocations of the original method, invocations of the guard
predicate, the write to `event.locals.validated`, invocations of the
`onFailure` callback) are recorded explicitly in the wrappers' outputs.
-/

set_option autoImplicit false

universe u v

/-- A JavaScript value, as far as the decorators inspect one: the guard only
compares against the literal `true` (strict equality) and substitutes
`undefined` for a missing first argument. -/
inductive Val where
  | vbool : Bool → Val
  | vundef : Val
  | vnull : Val
  | vstr : String → Val
  | vnum : Int → Val
deriving DecidableEq, Repr

/-- The outcome of invoking a JavaScript function: a synchronous return or
throw (`plain`), or a returned promise together with its eventual settlement
(`promise`).  `Except.error` carries the thrown / rejected value. -/
inductive JsResult where
  | plain : Except Val Val → JsResult
  | promise : Except Val Val → JsResult
deriving Repr

/-- Awaiting a call outcome: a plain value is used directly (a synchronous
throw surfaces as a rejection inside an `async` body), a promise is awaited. -/
def settle : JsResult → Except Val Val
  | .plain r => r
  | .promise r => r

/-- Whether the call produced a promise rather than a plain value. -/
def JsResult.isPromise : JsResult → Bool
  | .plain _ => false
  | .promise _ => true

/-- Observable behaviour of one invocation of a (possibly wrapped) method:
its outcome, the calls made to the original method (receiver and argument
list, in order), and the arguments passed to the guard predicate. -/
structure GuardOut (ρ : Type u) where
  result : JsResult
  origCalls : List (ρ × List Val)
  checkCalls : List Val

/-- Method-mode behaviour of the `Check` decorator
(`check-decorator.ts`, the `propertyKey && descriptor` branch): the wrapped
method is an `async function` that, when a predicate was supplied, awaits
`check(args[0])` (with `undefined` when there is no first argument), returns
the awaited result unless it is strictly `true`, and otherwise — or when no
predicate was supplied — calls the original with the original receiver and
arguments and returns its result.  The predicate is modelled by its awaited
behaviour `Val → Except Val Val` (rejection / synchronous throw as
`Except.error`). -/
def Check {ρ : Type u} :
    Option (Val → Except Val Val) → (ρ → List Val → JsResult) → ρ → List Val →
    GuardOut ρ
  | none, original, self, args =>
      { result := .promise (settle (original self args))
        origCalls := [(self, args)]
        checkCalls := [] }
  | some chk, original, self, args =>
      match chk (args.headD Val.vundef) with
      | .error e =>
          { result := .promise (.error e), origCalls := []
            checkCalls := [args.headD Val.vundef] }
      | .ok r =>
          if r = Val.vbool true then
            { result := .promise (settle (original self args))
              origCalls := [(self, args)]
              checkCalls := [args.headD Val.vundef] }
          else
            { result := .promise (.ok r), origCalls := []
              checkCalls := [args.headD Val.vundef] }

/-- A property found on the prototype by `Object.getOwnPropertyNames`:
either a method (a function-valued descriptor) or a plain data property. -/
inductive ProtoProp (ρ : Type u) where
  | func : (ρ → List Val → JsResult) → ProtoProp ρ
  | data : Val → ProtoProp ρ

/-- A property after class-mode decoration.  Methods are represented by
their instrumented behaviour (a `GuardOut`, so that predicate invocations
remain observable). -/
inductive DecProp (ρ : Type u) where
  | func : (ρ → List Val → GuardOut ρ) → DecProp ρ
  | data : Val → DecProp ρ

/-- Invoking a method the class decorator left untouched: no predicate runs,
the body runs directly. -/
def liftFunc {ρ : Type u} (f : ρ → List Val → JsResult) :
    ρ → List Val → GuardOut ρ :=
  fun self args => { result := f self args, origCalls := [(self, args)], checkCalls := [] }

/-- The name-based exclusion used by class mode
(`methodName === 'constructor' || methodName.startsWith('_')`): the
constructor and underscore-"private" methods are skipped.  `startsWith('_')`
— a one-character prefix — is the first character being an underscore. -/
def excludedName (name : String) : Bool :=
  name = "constructor" || decide (name.data.head? = some '_')

/-- How the class-mode loop of `check-decorator.ts` treats one own property
of the prototype: excluded names and non-function properties are left
untouched; any other method is replaced in place by the method-mode wrapper
with the same predicate. -/
def decorateEntry {ρ : Type u} (check : Option (Val → Except Val Val))
    (e : String × ProtoProp ρ) : String × DecProp ρ :=
  if excludedName e.1 then
    (e.1, match e.2 with
          | .func f => DecProp.func (liftFunc f)
          | .data w => DecProp.data w)
  else
    (e.1, match e.2 with
          | .func f => DecProp.func (fun self args => Check check f self args)
          | .data w => DecProp.data w)

/-- Class-mode behaviour of the `Check` decorator (the `else` branch of
`check-decorator.ts`): every own property of the prototype is visited and
rewritten by `decorateEntry`. -/
def CheckClass {ρ : Type u} (check : Option (Val → Except Val Val))
    (proto : List (String × ProtoProp ρ)) : List (String × DecProp ρ) :=
  proto.map (decorateEntry check)

/-- Looking a method up on a decorated prototype and calling it. -/
def invokeIn {ρ : Type u} (decorated : List (String × DecProp ρ))
    (name : String) (self : ρ) (args : List Val) : Option (GuardOut ρ) :=
  match decorated.find? (fun e => e.1 = name) with
  | some (_, .func g) => some (g self args)
  | _ => none

/-- A value of a flattened form object (`validation-decorator.ts`,
`formDataToObject`): either a scalar string or an array of strings. -/
inductive FormVal where
  | scalar : String → FormVal
  | seq : List String → FormVal
deriving DecidableEq, Repr

/-- Reading a property of a plain JavaScript object, modelled as an
insertion-ordered association list: the first (only) entry with the key. -/
def getKey (object : List (String × FormVal)) (k : String) : Option FormVal :=
  (object.find? (fun e => e.1 = k)).map Prod.snd

/-- Assigning a property of a plain JavaScript object: an existing key is
updated in place (its position is kept), a new key is appended at the end. -/
def setKey : List (String × FormVal) → String → FormVal → List (String × FormVal)
  | [], k, v => [(k, v)]
  | (k', v') :: rest, k, v =>
      if k' = k then (k, v) :: rest else (k', v') :: setKey rest k v

/-- One iteration of the `formData.forEach` loop in `formDataToObject`:
`existing = object[key]`; when defined, an array gets the value appended and
a scalar becomes the two-element array `[existing, value]`; when undefined,
the key is set to the scalar string value. -/
def formStep (object : List (String × FormVal)) (p : String × String) :
    List (String × FormVal) :=
  match getKey object p.1 with
  | some existing =>
      setKey object p.1 (match existing with
        | .seq xs => .seq (xs ++ [p.2])
        | .scalar s => .seq [s, p.2])
  | none => setKey object p.1 (.scalar p.2)

/-- `formDataToObject` of `validation-decorator.ts`: fold the form-data
pairs, in insertion order, into a plain object starting from `{}`.  `FormData`
is modelled as the ordered list of its string pairs (`value.toString()` is
the identity on strings). -/
def formDataToObject (formData : List (String × String)) :
    List (String × FormVal) :=
  formData.foldl formStep []

/-- A Zod error as the decorator consumes it: its `errors` field (the list
of field errors), `none` modelling an absent field so that
`result?.error?.errors ?? []` is observable. -/
structure ZodErrorT where
  errors : Option (List Val)
deriving DecidableEq, Repr

/-- The result of `schema.safeParse`. -/
inductive ParseResult where
  | success : Val → ParseResult
  | failure : ZodErrorT → ParseResult
deriving DecidableEq, Repr

/-- The wrapper's resolved value: either the structured failure produced by
SvelteKit's `fail(status, body)` — the body being
`{ message: ..., errors: ... }` — or a value coming from the original
method. -/
inductive ZRet where
  | actionFailure : Nat → String → List Val → ZRet
  | value : Val → ZRet
deriving DecidableEq, Repr

/-- Observable behaviour of one invocation of a `ZodValidate`-wrapped
method: the settlement of the promise the `async` wrapper returns, the write
to `event.locals.validated` (`none` = never written, `some none` = `null`
written, `some (some d)` = parsed data written), the invocations of the
`onFailure` callback (the event and the error passed to it), and the calls
made to the original method. -/
structure ZodOut (ε : Type u) (ρ : Type v) where
  result : Except Val ZRet
  validatedWrite : Option (Option Val)
  onFailureCalls : List (ε × ZodErrorT)
  origCalls : List (ρ × List ε)

/-- `ZodValidate` of `validation-decorator.ts`, the behaviour of the
replaced `descriptor.value`: `event` is `args[0]`; `body` is what
`event.request.clone().formData()` settles to (rejection as `Except.error`);
the flattened object is fed to `schema.safeParse`; `event.locals.validated`
receives `result.success ? result.data : null`; on failure the optional
`onFailure` callback is called with `(event, result.error)` and the wrapper
resolves with `fail(422, { message: 'Validation failed.',
errors: result?.error?.errors ?? [] })`; on success the original method runs
with the original receiver and arguments.  Arguments are kept abstract
(`List ε` with `event` their head as a `RequestEvent`). -/
def ZodValidate {ε : Type u} {ρ : Type v}
    (schema : List (String × FormVal) → ParseResult)
    (onFailure : Option (ε → ZodErrorT → Unit))
    (event : ε)
    (body : Except Val (List (String × String)))
    (original : ρ → List ε → Except Val Val)
    (self : ρ) (args : List ε) : ZodOut ε ρ :=
  match body with
  | .error e =>
      { result := .error e, validatedWrite := none, onFailureCalls := [], origCalls := [] }
  | .ok formData =>
      match schema (formDataToObject formData) with
      | .success d =>
          { result := (original self args).map ZRet.value
            validatedWrite := some (some d)
            onFailureCalls := []
            origCalls := [(self, args)] }
      | .failure err =>
          { result := .ok (ZRet.actionFailure 422 "Validation failed." (err.errors.getD []))
            validatedWrite := some none
            onFailureCalls := match onFailure with
              | some _ => [(event, err)]
              | none => []
            origCalls := [] }

/-- The values a given key receives in a form body, in append order. -/
def valuesOf (pairs : List (String × String)) (k : String) : List String :=
  (pairs.filter (fun p => decide (p.1 = k))).map Prod.snd

/-- The entry the flattening produces for a key with the given value list:
no entry for an absent key, a scalar for a single value, the ordered array
for several. -/
def mkEntry : List String → Option FormVal
  | [] => none
  | [s] => some (.scalar s)
  | vs => some (.seq vs)

/-- Extending an object entry by further values, one `formStep` at a time:
the loop of `formDataToObject` restricted to a single key. -/
def extendEntry : Option FormVal → List String → Option FormVal
  | e, [] => e
  | some (.seq xs), s :: rest => extendEntry (some (.seq (xs ++ [s]))) rest
  | some (.scalar x), s :: rest => extendEntry (some (.seq [x, s])) rest
  | none, s :: rest => extendEntry (some (.scalar s)) rest

/-- The keys of a list in first-occurrence order. -/
def firstKeys : List String → List String
  | [] => []
  | k :: ks => k :: firstKeys (ks.filter (fun x => decide (x ≠ k)))
termination_by l => l.length
decreasing_by
  simp only [List.length_cons]
  exact Nat.lt_succ_of_le (List.length_filter_le _ _)

/-- The form-body pairs a single object entry re-appends: a scalar once, an
array element by element in order. -/
def entryPairs (e : String × FormVal) : List (String × String) :=
  match e.2 with
  | .scalar s => [(e.1, s)]
  | .seq xs => xs.map (fun x => (e.1, x))

/-- Re-appending every entry of a flattened object as a form body (scalars
once, array elements in order). -/
def reappend (object : List (String × FormVal)) : List (String × String) :=
  object.flatMap entryPairs

/-- The shape invariant of flattened objects: every array entry has at least
two elements (arrays are only ever created as `[previous, value]` and then
appended to). -/
def goodVal : FormVal → Prop
  | .scalar _ => True
  | .seq xs => 2 ≤ xs.length

lemma decorateEntry_fst {ρ : Type u} (check : Option (Val → Except Val Val))
    (e : String × ProtoProp ρ) : (decorateEntry check e).1 = e.1 := by
  unfold decorateEntry
  split <;> rfl

lemma find_CheckClass {ρ : Type u} (check : Option (Val → Except Val Val))
    (proto : List (String × ProtoProp ρ)) (name : String) :
    (CheckClass check proto).find? (fun e => e.1 = name)
      = (proto.find? (fun e => e.1 = name)).map (decorateEntry check) := by
  induction proto with
  | nil => rfl
  | cons hd tl ih =>
    by_cases h : hd.1 = name
    · simp [CheckClass, List.find?, decorateEntry_fst, h]
    · simpa [CheckClass, List.find?, decorateEntry_fst, h] using ih

lemma check_checkCalls {ρ : Type u} (chk : Val → Except Val Val)
    (original : ρ → List Val → JsResult) (self : ρ) (args : List Val) :
    (Check (some chk) original self args).checkCalls = [args.headD Val.vundef] := by
  simp only [Check]
  cases hc : chk (args.headD Val.vundef) with
  | error e => rfl
  | ok r =>
    by_cases hr : r = Val.vbool true <;> simp [hr]

/-- C1: with a guard predicate supplied, if the awaited predicate result is
exactly the value `true` the original method is invoked exactly once with
the unmodified arguments and receiver and its (awaited) result is returned
unchanged; if the awaited result is any value `v` not identical to `true`
(including `undefined`) the original method is never invoked and the
wrapper's promise resolves with exactly `v`. -/
theorem check_guard_semantics {ρ : Type u} (chk : Val → Except Val Val)
    (original : ρ → List Val → JsResult) (self : ρ) (args : List Val) :
    (chk (args.headD Val.vundef) = Except.ok (Val.vbool true) →
      (Check (some chk) original self args).origCalls = [(self, args)]
      ∧ (Check (some chk) original self args).result
          = JsResult.promise (settle (original self args)))
    ∧ (∀ w : Val, chk (args.headD Val.vundef) = Except.ok w → w ≠ Val.vbool true →
      (Check (some chk) original self args).origCalls = []
      ∧ (Check (some chk) original self args).result
          = JsResult.promise (Except.ok w)) := by
  constructor
  · intro h
    simp only [Check]
    rw [h]
    exact ⟨rfl, rfl⟩
  · intro w h hw
    simp only [Check]
    rw [h]
    simp [hw]

theorem check_guard_semantics_witness :
    ((Check (some (fun _ => Except.ok (Val.vbool true)))
        (fun (_ : Unit) _ => JsResult.plain (Except.ok (Val.vstr "r"))) () [Val.vnum 1]).origCalls
      = [((), [Val.vnum 1])])
    ∧ ((Check (some (fun _ => Except.ok Val.vundef))
        (fun (_ : Unit) _ => JsResult.plain (Except.ok (Val.vstr "r"))) () []).result
      = JsResult.promise (Except.ok Val.vundef)) :=
  ⟨((check_guard_semantics (fun _ => Except.ok (Val.vbool true))
      (fun (_ : Unit) _ => JsResult.plain (Except.ok (Val.vstr "r"))) () [Val.vnum 1]).1 rfl).1,
   ((check_guard_semantics (fun _ => Except.ok Val.vundef)
      (fun (_ : Unit) _ => JsResult.plain (Except.ok (Val.vstr "r"))) () []).2
      Val.vundef rfl (by decide)).2⟩

/-- C8: a guard predicate that throws or rejects is not recovered: the
wrapper's promise rejects with the very value the predicate failed with,
and the original method is never invoked. -/
theorem check_guard_fault {ρ : Type u} (chk : Val → Except Val Val)
    (original : ρ → List Val → JsResult) (self : ρ) (args : List Val) (e : Val)
    (h : chk (args.headD Val.vundef) = Except.error e) :
    (Check (some chk) original self args).result = JsResult.promise (Except.error e)
    ∧ (Check (some chk) original self args).origCalls = [] := by
  simp only [Check]
  rw [h]
  exact ⟨rfl, rfl⟩

theorem check_guard_fault_witness :
    ((Check (some (fun _ => Except.error (Val.vstr "boom")))
        (fun (_ : Unit) _ => JsResult.plain (Except.ok (Val.vstr "r"))) () []).result
      = JsResult.promise (Except.error (Val.vstr "boom")))
    ∧ ((Check (some (fun _ => Except.error (Val.vstr "boom")))
        (fun (_ : Unit) _ => JsResult.plain (Except.ok (Val.vstr "r"))) () []).origCalls
      = []) :=
  check_guard_fault (fun _ => Except.error (Val.vstr "boom"))
    (fun (_ : Unit) _ => JsResult.plain (Except.ok (Val.vstr "r"))) () []
    (Val.vstr "boom") rfl

/-- C9: with no predicate supplied the wrapper is a pass-through: the
original method is always invoked once with the original arguments and
receiver, its awaited result is delivered through the wrapper's promise,
and no predicate runs. -/
theorem check_no_predicate_passthrough {ρ : Type u}
    (original : ρ → List Val → JsResult) (self : ρ) (args : List Val) :
    Check none original self args
      = { result := JsResult.promise (settle (original self args))
          origCalls := [(self, args)]
          checkCalls := [] } := rfl

/-- C10: every method wrapped by `Check` — method mode or class mode, with
or without a predicate — becomes an `async function`: invoking it always
yields a promise; a synchronous original's return value is delivered
through that promise, never as a plain value.  The third part shows that
the class-mode wrapper installed for any non-excluded method is exactly the
method-mode wrapper, so the same holds for it. -/
theorem check_wrapper_always_async {ρ : Type u}
    (check : Option (Val → Except Val Val))
    (original : ρ → List Val → JsResult)
    (proto : List (String × ProtoProp ρ)) (name : String)
    (f : ρ → List Val → JsResult) (self : ρ) (args : List Val) (v : Val) :
    ((Check check original self args).result.isPromise = true)
    ∧ ((Check none (fun (_ : ρ) _ => JsResult.plain (Except.ok v)) self args).result
        = JsResult.promise (Except.ok v))
    ∧ (proto.find? (fun e => e.1 = name) = some (name, ProtoProp.func f) →
       excludedName name = false →
       invokeIn (CheckClass check proto) name self args
         = some (Check check f self args)) := by
  refine ⟨?_, rfl, ?_⟩
  · cases check with
    | none => rfl
    | some chk =>
      simp only [Check]
      cases chk (args.headD Val.vundef) with
      | error e => rfl
      | ok r =>
        by_cases hr : r = Val.vbool true <;> simp [hr, JsResult.isPromise]
  · intro hfind hexc
    unfold invokeIn
    rw [find_CheckClass, hfind]
    simp [decorateEntry, hexc]

theorem check_wrapper_always_async_witness :
    invokeIn
      (CheckClass none
        [("m", ProtoProp.func (fun (_ : Unit) _ => JsResult.plain (Except.ok (Val.vstr "x"))))])
      "m" () []
      = some (Check none
          (fun (_ : Unit) _ => JsResult.plain (Except.ok (Val.vstr "x"))) () []) :=
  (check_wrapper_always_async none
    (fun (_ : Unit) _ => JsResult.plain (Except.ok (Val.vstr "x")))
    [("m", ProtoProp.func (fun (_ : Unit) _ => JsResult.plain (Except.ok (Val.vstr "x"))))]
    "m" (fun (_ : Unit) _ => JsResult.plain (Except.ok (Val.vstr "x"))) () []
    (Val.vstr "x")).2.2 rfl rfl

/-- C6: class-mode `Check` wraps every method found directly on the
prototype except the constructor and names starting with `_`: invoking an
excluded method runs the original body directly and never invokes the
predicate, while invoking any wrapped (non-excluded) method goes through
the method-mode wrapper and invokes the predicate with the call's first
argument. -/
theorem check_class_mode {ρ : Type u} (chk : Val → Except Val Val)
    (proto : List (String × ProtoProp ρ)) (name : String)
    (f : ρ → List Val → JsResult) (self : ρ) (args : List Val)
    (hfind : proto.find? (fun e => e.1 = name) = some (name, ProtoProp.func f)) :
    (excludedName name = true →
      invokeIn (CheckClass (some chk) proto) name self args
        = some { result := f self args
                 origCalls := [(self, args)]
                 checkCalls := [] })
    ∧ (excludedName name = false →
      invokeIn (CheckClass (some chk) proto) name self args
        = some (Check (some chk) f self args)
      ∧ (Check (some chk) f self args).checkCalls = [args.headD Val.vundef]) := by
  constructor
  · intro hexc
    unfold invokeIn
    rw [find_CheckClass, hfind]
    simp [decorateEntry, hexc, liftFunc]
  · intro hexc
    refine ⟨?_, check_checkCalls chk f self args⟩
    unfold invokeIn
    rw [find_CheckClass, hfind]
    simp [decorateEntry, hexc]

theorem check_class_mode_witness :
    (invokeIn
      (CheckClass (some (fun _ => Except.ok (Val.vbool true)))
        [("_p", ProtoProp.func (fun (_ : Unit) _ => JsResult.plain (Except.ok (Val.vstr "x"))))])
      "_p" () []
      = some { result := JsResult.plain (Except.ok (Val.vstr "x"))
               origCalls := [((), [])]
               checkCalls := [] })
    ∧ ((Check (some (fun _ => Except.ok (Val.vbool true)))
          (fun (_ : Unit) _ => JsResult.plain (Except.ok (Val.vstr "y"))) () []).checkCalls
        = [Val.vundef]) :=
  ⟨(check_class_mode (fun _ => Except.ok (Val.vbool true))
      [("_p", ProtoProp.func (fun (_ : Unit) _ => JsResult.plain (Except.ok (Val.vstr "x"))))]
      "_p" (fun (_ : Unit) _ => JsResult.plain (Except.ok (Val.vstr "x"))) () [] rfl).1 rfl,
   ((check_class_mode (fun _ => Except.ok (Val.vbool true))
      [("q", ProtoProp.func (fun (_ : Unit) _ => JsResult.plain (Except.ok (Val.vstr "y"))))]
      "q" (fun (_ : Unit) _ => JsResult.plain (Except.ok (Val.vstr "y"))) () [] rfl).2 rfl).2⟩

/-- C2: when the flattened form fails schema parsing, `null` is stored into
`event.locals.validated`, the `onFailure` callback — exactly when supplied —
is invoked with `(event, error)`, the original method is never invoked, and
the wrapper resolves with the structured failure of HTTP status `422` and
body `{ message: "Validation failed.", errors: <field errors, or empty
sequence if absent> }`; on a successful parse the callback is never
invoked. -/
theorem zodvalidate_failure_path {ε : Type u} {ρ : Type v}
    (schema : List (String × FormVal) → ParseResult)
    (onFailure : Option (ε → ZodErrorT → Unit)) (event : ε)
    (formData : List (String × String))
    (original : ρ → List ε → Except Val Val) (self : ρ) (args : List ε)
    (err : ZodErrorT)
    (hs : schema (formDataToObject formData) = ParseResult.failure err) :
    ((ZodValidate schema onFailure event (Except.ok formData) original self args).validatedWrite
      = some none)
    ∧ ((ZodValidate schema onFailure event (Except.ok formData) original self args).onFailureCalls
      = if onFailure.isSome then [(event, err)] else [])
    ∧ ((ZodValidate schema onFailure event (Except.ok formData) original self args).origCalls
      = [])
    ∧ ((ZodValidate schema onFailure event (Except.ok formData) original self args).result
      = Except.ok (ZRet.actionFailure 422 "Validation failed." (err.errors.getD [])))
    ∧ (∀ (schema2 : List (String × FormVal) → ParseResult) (d : Val),
        schema2 (formDataToObject formData) = ParseResult.success d →
        (ZodValidate schema2 onFailure event (Except.ok formData) original self args).onFailureCalls
          = []) := by
  refine ⟨?_, ?_, ?_, ?_, ?_⟩
  · simp only [ZodValidate]
    rw [hs]
  · simp only [ZodValidate]
    rw [hs]
    cases onFailure <;> rfl
  · simp only [ZodValidate]
    rw [hs]
  · simp only [ZodValidate]
    rw [hs]
  · intro schema2 d hs2
    simp only [ZodValidate]
    rw [hs2]

theorem zodvalidate_failure_path_witness :
    ((ZodValidate (fun _ => ParseResult.failure ⟨some [Val.vstr "e"]⟩)
        (some (fun _ _ => ())) () (Except.ok [("a", "1")])
        (fun (_ : Unit) _ => Except.ok (Val.vstr "r")) () [()]).validatedWrite
      = some none)
    ∧ ((ZodValidate (fun _ => ParseResult.failure ⟨some [Val.vstr "e"]⟩)
        (some (fun _ _ => ())) () (Except.ok [("a", "1")])
        (fun (_ : Unit) _ => Except.ok (Val.vstr "r")) () [()]).onFailureCalls
      = [((), ⟨some [Val.vstr "e"]⟩)])
    ∧ ((ZodValidate (fun _ => ParseResult.failure ⟨some [Val.vstr "e"]⟩)
        (some (fun _ _ => ())) () (Except.ok [("a", "1")])
        (fun (_ : Unit) _ => Except.ok (Val.vstr "r")) () [()]).origCalls
      = [])
    ∧ ((ZodValidate (fun _ => ParseResult.failure ⟨some [Val.vstr "e"]⟩)
        (some (fun _ _ => ())) () (Except.ok [("a", "1")])
        (fun (_ : Unit) _ => Except.ok (Val.vstr "r")) () [()]).result
      = Except.ok (ZRet.actionFailure 422 "Validation failed." [Val.vstr "e"])) := by
  have h := zodvalidate_failure_path (fun _ => ParseResult.failure ⟨some [Val.vstr "e"]⟩)
    (some (fun _ _ => ())) () [("a", "1")]
    (fun (_ : Unit) _ => Except.ok (Val.vstr "r")) () [()] ⟨some [Val.vstr "e"]⟩ rfl
  exact ⟨h.1, by simpa using h.2.1, h.2.2.1, by simpa using h.2.2.2.1⟩

/-- C3: when the flattened form passes schema parsing, the schema's parsed
output is stored into `event.locals.validated`, and the original method is
invoked with the original receiver and arguments with its result returned
through the wrapper. -/
theorem zodvalidate_success_path {ε : Type u} {ρ : Type v}
    (schema : List (String × FormVal) → ParseResult)
    (onFailure : Option (ε → ZodErrorT → Unit)) (event : ε)
    (formData : List (String × String))
    (original : ρ → List ε → Except Val Val) (self : ρ) (args : List ε)
    (d : Val)
    (hs : schema (formDataToObject formData) = ParseResult.success d) :
    ((ZodValidate schema onFailure event (Except.ok formData) original self args).validatedWrite
      = some (some d))
    ∧ ((ZodValidate schema onFailure event (Except.ok formData) original self args).origCalls
      = [(self, args)])
    ∧ ((ZodValidate schema onFailure event (Except.ok formData) original self args).result
      = (original self args).map ZRet.value) := by
  refine ⟨?_, ?_, ?_⟩ <;>
    · simp only [ZodValidate]
      rw [hs]

theorem zodvalidate_success_path_witness :
    ((ZodValidate (fun _ => ParseResult.success (Val.vstr "parsed"))
        none () (Except.ok [("a", "1")])
        (fun (_ : Unit) _ => Except.ok (Val.vstr "r")) () [()]).validatedWrite
      = some (some (Val.vstr "parsed")))
    ∧ ((ZodValidate (fun _ => ParseResult.success (Val.vstr "parsed"))
        none () (Except.ok [("a", "1")])
        (fun (_ : Unit) _ => Except.ok (Val.vstr "r")) () [()]).origCalls
      = [((), [()])])
    ∧ ((ZodValidate (fun _ => ParseResult.success (Val.vstr "parsed"))
        none () (Except.ok [("a", "1")])
        (fun (_ : Unit) _ => Except.ok (Val.vstr "r")) () [()]).result
      = Except.ok (ZRet.value (Val.vstr "r"))) := by
  have h := zodvalidate_success_path (fun _ => ParseResult.success (Val.vstr "parsed"))
    none () [("a", "1")] (fun (_ : Unit) _ => Except.ok (Val.vstr "r")) () [()]
    (Val.vstr "parsed") rfl
  exact ⟨h.1, h.2.1, by simpa using h.2.2⟩

/-- C7: when acquiring or reading the body snapshot fails (the
`event.request.clone().formData()` step rejects), the fault propagates to
the caller unrecovered: the wrapper rejects with the same value, no `422`
structured failure is produced, `locals.validated` is never written, no
callback runs, and the original method is not invoked. -/
theorem zodvalidate_body_fault {ε : Type u} {ρ : Type v}
    (schema : List (String × FormVal) → ParseResult)
    (onFailure : Option (ε → ZodErrorT → Unit)) (event : ε)
    (original : ρ → List ε → Except Val Val) (self : ρ) (args : List ε)
    (e : Val) :
    ZodValidate schema onFailure event (Except.error e) original self args
      = { result := Except.error e
          validatedWrite := none
          onFailureCalls := []
          origCalls := [] } := rfl

lemma getKey_cons (k' : String) (w : FormVal) (obj : List (String × FormVal))
    (k : String) :
    getKey ((k', w) :: obj) k = if k' = k then some w else getKey obj k := by
  by_cases h : k' = k <;> simp [getKey, List.find?, h]

lemma getKey_head (k : String) (w : FormVal) (obj : List (String × FormVal)) :
    getKey ((k, w) :: obj) k = some w := by
  rw [getKey_cons, if_pos rfl]

lemma setKey_head (k : String) (w v : FormVal) (obj : List (String × FormVal)) :
    setKey ((k, w) :: obj) k v = (k, v) :: obj := by
  simp [setKey]

lemma setKey_cons_ne (k' : String) (w : FormVal) (obj : List (String × FormVal))
    (k : String) (v : FormVal) (h : k' ≠ k) :
    setKey ((k', w) :: obj) k v = (k', w) :: setKey obj k v := by
  simp [setKey, h]

lemma getKey_setKey_self (obj : List (String × FormVal)) (k : String) (v : FormVal) :
    getKey (setKey obj k v) k = some v := by
  induction obj with
  | nil => simp [setKey, getKey, List.find?]
  | cons hd tl ih =>
    obtain ⟨k', w⟩ := hd
    by_cases h : k' = k
    · subst h
      rw [setKey_head, getKey_head]
    · rw [setKey_cons_ne _ _ _ _ _ h, getKey_cons, if_neg h]
      exact ih

lemma getKey_setKey_ne (obj : List (String × FormVal)) (k2 k : String) (v : FormVal)
    (h : k2 ≠ k) :
    getKey (setKey obj k2 v) k = getKey obj k := by
  induction obj with
  | nil => simp [setKey, getKey, List.find?, h]
  | cons hd tl ih =>
    obtain ⟨k', w⟩ := hd
    by_cases h' : k' = k2
    · subst h'
      rw [setKey_head, getKey_cons, getKey_cons, if_neg h, if_neg h]
    · rw [setKey_cons_ne _ _ _ _ _ h', getKey_cons, getKey_cons]
      by_cases h'' : k' = k
      · rw [if_pos h'', if_pos h'']
      · rw [if_neg h'', if_neg h'', ih]

lemma getKey_formStep_self (obj : List (String × FormVal)) (k : String) (v : String) :
    getKey (formStep obj (k, v)) k
      = some (match getKey obj k with
          | some (.seq xs) => .seq (xs ++ [v])
          | some (.scalar s) => .seq [s, v]
          | none => .scalar v) := by
  unfold formStep
  cases hk : getKey obj k with
  | none => simp only [hk, getKey_setKey_self]
  | some ex => cases ex <;> simp only [hk, getKey_setKey_self]

lemma getKey_formStep_ne (obj : List (String × FormVal)) (k2 k : String) (v : String)
    (h : k2 ≠ k) :
    getKey (formStep obj (k2, v)) k = getKey obj k := by
  unfold formStep
  cases hk : getKey obj k2 with
  | none => simp only [getKey_setKey_ne _ _ _ _ h]
  | some ex => cases ex <;> simp only [getKey_setKey_ne _ _ _ _ h]

lemma valuesOf_cons (p : String × String) (rest : List (String × String)) (k : String) :
    valuesOf (p :: rest) k
      = if p.1 = k then p.2 :: valuesOf rest k else valuesOf rest k := by
  by_cases h : p.1 = k <;> simp [valuesOf, List.filter, h]

lemma extendEntry_step (e : Option FormVal) (v : String) (vs : List String) :
    extendEntry e (v :: vs)
      = extendEntry (some (match e with
          | some (.seq xs) => .seq (xs ++ [v])
          | some (.scalar s) => .seq [s, v]
          | none => .scalar v)) vs := by
  match e with
  | none => rfl
  | some (.scalar s) => rfl
  | some (.seq xs) => rfl

lemma getKey_foldl (pairs : List (String × String)) (obj : List (String × FormVal))
    (k : String) :
    getKey (pairs.foldl formStep obj) k
      = extendEntry (getKey obj k) (valuesOf pairs k) := by
  induction pairs generalizing obj with
  | nil => simp [valuesOf, extendEntry]
  | cons p rest ih =>
    obtain ⟨k', v⟩ := p
    rw [List.foldl_cons, ih, valuesOf_cons]
    by_cases h : k' = k
    · subst h
      rw [if_pos rfl, extendEntry_step, getKey_formStep_self]
    · rw [if_neg h, getKey_formStep_ne _ _ _ _ h]

lemma extendEntry_seq (xs vs : List String) :
    extendEntry (some (.seq xs)) vs = some (.seq (xs ++ vs)) := by
  induction vs generalizing xs with
  | nil => simp [extendEntry]
  | cons v rest ih =>
    rw [extendEntry, ih, List.append_assoc]
    rfl

lemma extendEntry_scalar (x : String) (vs : List String) :
    extendEntry (some (.scalar x)) vs
      = some (match vs with
          | [] => FormVal.scalar x
          | v :: rest => FormVal.seq (x :: v :: rest)) := by
  cases vs with
  | nil => rfl
  | cons v rest =>
    rw [extendEntry, extendEntry_seq]
    rfl

lemma extendEntry_none (vs : List String) :
    extendEntry none vs = mkEntry vs := by
  cases vs with
  | nil => rfl
  | cons v rest =>
    rw [extendEntry, extendEntry_scalar]
    cases rest <;> rfl

lemma getKey_eq_none_iff (obj : List (String × FormVal)) (k : String) :
    getKey obj k = none ↔ k ∉ obj.map Prod.fst := by
  induction obj with
  | nil => simp [getKey]
  | cons hd tl ih =>
    obtain ⟨k', w⟩ := hd
    rw [getKey_cons]
    by_cases h : k' = k
    · simp [h]
    · simp [h, ih, Ne.symm h]

lemma keys_setKey_update (obj : List (String × FormVal)) (k : String) (v : FormVal)
    (h : getKey obj k ≠ none) :
    (setKey obj k v).map Prod.fst = obj.map Prod.fst := by
  induction obj with
  | nil => simp [getKey] at h
  | cons hd tl ih =>
    obtain ⟨k', w⟩ := hd
    by_cases h' : k' = k
    · subst h'
      rw [setKey_head]
      rfl
    · rw [setKey_cons_ne _ _ _ _ _ h']
      rw [getKey_cons, if_neg h'] at h
      simp [ih h]

lemma keys_setKey_new (obj : List (String × FormVal)) (k : String) (v : FormVal)
    (h : getKey obj k = none) :
    (setKey obj k v).map Prod.fst = obj.map Prod.fst ++ [k] := by
  induction obj with
  | nil => rfl
  | cons hd tl ih =>
    obtain ⟨k', w⟩ := hd
    rw [getKey_cons] at h
    by_cases h' : k' = k
    · rw [if_pos h'] at h
      exact absurd h (by simp)
    · rw [if_neg h'] at h
      rw [setKey_cons_ne _ _ _ _ _ h']
      simp [ih h]

lemma keys_formStep_mem (obj : List (String × FormVal)) (k v : String)
    (h : getKey obj k ≠ none) :
    (formStep obj (k, v)).map Prod.fst = obj.map Prod.fst := by
  unfold formStep
  cases hk : getKey obj k with
  | none => exact absurd hk h
  | some ex => cases ex <;> exact keys_setKey_update _ _ _ (by rw [hk]; simp)

lemma keys_formStep_new (obj : List (String × FormVal)) (k v : String)
    (h : getKey obj k = none) :
    (formStep obj (k, v)).map Prod.fst = obj.map Prod.fst ++ [k] := by
  unfold formStep
  rw [h]
  exact keys_setKey_new _ _ _ h

lemma firstKeys_cons (k : String) (ks : List String) :
    firstKeys (k :: ks) = k :: firstKeys (ks.filter (fun x => decide (x ≠ k))) := by
  rw [firstKeys.eq_def]

lemma keys_foldl (pairs : List (String × String)) (obj : List (String × FormVal)) :
    (pairs.foldl formStep obj).map Prod.fst
      = obj.map Prod.fst
        ++ firstKeys ((pairs.map Prod.fst).filter
            (fun x => decide (x ∉ obj.map Prod.fst))) := by
  induction pairs generalizing obj with
  | nil => simp [firstKeys]
  | cons p rest ih =>
    obtain ⟨k, v⟩ := p
    rw [List.foldl_cons, ih]
    by_cases hk : k ∈ obj.map Prod.fst
    · have h1 : getKey obj k ≠ none := by
        rw [Ne, getKey_eq_none_iff]
        simpa using hk
      rw [keys_formStep_mem _ _ _ h1]
      have hd : (decide (k ∉ obj.map Prod.fst)) = false := by simpa using hk
      simp only [List.map_cons, List.filter_cons, hd, Bool.false_eq_true, if_false]
    · have h1 : getKey obj k = none := (getKey_eq_none_iff _ _).2 hk
      rw [keys_formStep_new _ _ _ h1, List.append_assoc]
      congr 1
      have hd : (decide (k ∉ obj.map Prod.fst)) = true := by simpa using hk
      have hfil : (rest.map Prod.fst).filter
            (fun x => decide (x ∉ (obj.map Prod.fst ++ [k])))
          = ((rest.map Prod.fst).filter (fun x => decide (x ∉ obj.map Prod.fst))).filter
              (fun x => decide (x ≠ k)) := by
        rw [List.filter_filter]
        apply List.filter_congr
        intro x _
        by_cases hx1 : x = k <;> by_cases hx2 : x ∈ obj.map Prod.fst <;>
          simp [hx1, hx2]
      simp only [List.map_cons, List.filter_cons, hd, if_true, hfil]
      rw [firstKeys_cons]
      rfl

lemma formStep_cons_ne (k : String) (w : FormVal) (obj : List (String × FormVal))
    (p : String × String) (h : k ≠ p.1) :
    formStep ((k, w) :: obj) p = (k, w) :: formStep obj p := by
  unfold formStep
  rw [getKey_cons, if_neg h]
  cases getKey obj p.1 with
  | none => exact setKey_cons_ne _ _ _ _ _ h
  | some ex => cases ex <;> exact setKey_cons_ne _ _ _ _ _ h

lemma foldl_cons_ne (pairs : List (String × String)) (k : String) (w : FormVal)
    (obj : List (String × FormVal)) (h : ∀ p ∈ pairs, p.1 ≠ k) :
    pairs.foldl formStep ((k, w) :: obj) = (k, w) :: pairs.foldl formStep obj := by
  induction pairs generalizing obj with
  | nil => rfl
  | cons p rest ih =>
    rw [List.foldl_cons, List.foldl_cons,
      formStep_cons_ne _ _ _ _ (Ne.symm (h p (List.mem_cons_self _ _)))]
    exact ih _ (fun q hq => h q (List.mem_cons_of_mem _ hq))

lemma formStep_nil (k y : String) :
    formStep [] (k, y) = [(k, FormVal.scalar y)] := rfl

lemma formStep_head_scalar (k s : String) (obj : List (String × FormVal)) (y : String) :
    formStep ((k, FormVal.scalar s) :: obj) (k, y)
      = (k, FormVal.seq [s, y]) :: obj := by
  unfold formStep
  rw [getKey_head]
  exact setKey_head _ _ _ _

lemma formStep_head_seq (k : String) (zs : List String)
    (obj : List (String × FormVal)) (y : String) :
    formStep ((k, FormVal.seq zs) :: obj) (k, y)
      = (k, FormVal.seq (zs ++ [y])) :: obj := by
  unfold formStep
  rw [getKey_head]
  exact setKey_head _ _ _ _

lemma seq_build (ys : List String) (k : String) (zs : List String)
    (obj : List (String × FormVal)) :
    (ys.map (fun x => (k, x))).foldl formStep ((k, FormVal.seq zs) :: obj)
      = (k, FormVal.seq (zs ++ ys)) :: obj := by
  induction ys generalizing zs with
  | nil => simp
  | cons y ys ih =>
    rw [List.map_cons, List.foldl_cons, formStep_head_seq, ih, List.append_assoc]
    rfl

lemma entry_build (k : String) (fv : FormVal) (h : goodVal fv) :
    (entryPairs (k, fv)).foldl formStep [] = [(k, fv)] := by
  cases fv with
  | scalar s => rfl
  | seq xs =>
    cases xs with
    | nil => simp [goodVal] at h
    | cons x1 t =>
      cases t with
      | nil => simp [goodVal] at h
      | cons x2 rest =>
        simp only [entryPairs, List.map_cons, List.foldl_cons]
        rw [formStep_nil, formStep_head_scalar]
        exact seq_build rest k [x1, x2] []

lemma mem_setKey (obj : List (String × FormVal)) (k : String) (v : FormVal) :
    ∀ e ∈ setKey obj k v, e = (k, v) ∨ e ∈ obj := by
  induction obj with
  | nil =>
    intro e he
    simp [setKey] at he
    exact Or.inl he
  | cons hd tl ih =>
    obtain ⟨k', w⟩ := hd
    intro e he
    by_cases h : k' = k
    · subst h
      rw [setKey_head] at he
      rcases List.mem_cons.1 he with h1 | h1
      · exact Or.inl h1
      · exact Or.inr (List.mem_cons_of_mem _ h1)
    · rw [setKey_cons_ne _ _ _ _ _ h] at he
      rcases List.mem_cons.1 he with h1 | h1
      · exact Or.inr (h1 ▸ List.mem_cons_self _ _)
      · rcases ih e h1 with h2 | h2
        · exact Or.inl h2
        · exact Or.inr (List.mem_cons_of_mem _ h2)

lemma getKey_mem (obj : List (String × FormVal)) (k : String) (w : FormVal)
    (h : getKey obj k = some w) : (k, w) ∈ obj := by
  induction obj with
  | nil => simp [getKey] at h
  | cons hd tl ih =>
    obtain ⟨k', w'⟩ := hd
    rw [getKey_cons] at h
    by_cases hk : k' = k
    · rw [if_pos hk] at h
      have hw := Option.some.inj h
      subst hk
      rw [← hw]
      exact List.mem_cons_self _ _
    · rw [if_neg hk] at h
      exact List.mem_cons_of_mem _ (ih h)

lemma good_formStep (obj : List (String × FormVal)) (p : String × String)
    (hg : ∀ e ∈ obj, goodVal e.2) :
    ∀ e ∈ formStep obj p, goodVal e.2 := by
  intro e he
  unfold formStep at he
  cases hk : getKey obj p.1 with
  | none =>
    rw [hk] at he
    rcases mem_setKey _ _ _ e he with h1 | h1
    · rw [h1]; trivial
    · exact hg e h1
  | some ex =>
    rw [hk] at he
    cases ex with
    | scalar s =>
      rcases mem_setKey _ _ _ e he with h1 | h1
      · rw [h1]; simp [goodVal]
      · exact hg e h1
    | seq xs =>
      rcases mem_setKey _ _ _ e he with h1 | h1
      · rw [h1]
        have h2 := hg (p.1, FormVal.seq xs) (getKey_mem _ _ _ hk)
        simp [goodVal] at h2 ⊢
        omega
      · exact hg e h1

lemma invariant_foldl (pairs : List (String × String)) (obj : List (String × FormVal))
    (hnd : (obj.map Prod.fst).Nodup) (hg : ∀ e ∈ obj, goodVal e.2) :
    ((pairs.foldl formStep obj).map Prod.fst).Nodup
    ∧ ∀ e ∈ pairs.foldl formStep obj, goodVal e.2 := by
  induction pairs generalizing obj with
  | nil => exact ⟨hnd, hg⟩
  | cons p rest ih =>
    obtain ⟨k, v⟩ := p
    rw [List.foldl_cons]
    apply ih
    · by_cases hk : getKey obj k = none
      · rw [keys_formStep_new _ _ _ hk]
        have hkm : k ∉ obj.map Prod.fst := (getKey_eq_none_iff _ _).1 hk
        simp [List.nodup_append, hnd, hkm]
      · rw [keys_formStep_mem _ _ _ hk]
        exact hnd
    · exact good_formStep _ _ hg

lemma fst_mem_of_mem_reappend (obj : List (String × FormVal)) (p : String × String)
    (hp : p ∈ reappend obj) : p.1 ∈ obj.map Prod.fst := by
  unfold reappend at hp
  rcases List.mem_flatMap.1 hp with ⟨e, he, hpe⟩
  obtain ⟨k, fv⟩ := e
  have h1 : p.1 = k := by
    cases fv with
    | scalar s =>
      simp [entryPairs] at hpe
      rw [hpe]
    | seq xs =>
      simp only [entryPairs] at hpe
      rcases List.mem_map.1 hpe with ⟨x, _, hx⟩
      rw [← hx]
  rw [h1]
  exact List.mem_map_of_mem Prod.fst he

lemma refold (obj : List (String × FormVal))
    (hnd : (obj.map Prod.fst).Nodup) (hg : ∀ e ∈ obj, goodVal e.2) :
    formDataToObject (reappend obj) = obj := by
  induction obj with
  | nil => rfl
  | cons e rest ih =>
    obtain ⟨k, fv⟩ := e
    have hk : k ∉ rest.map Prod.fst := by
      simp only [List.map_cons, List.nodup_cons] at hnd
      exact hnd.1
    have hndr : (rest.map Prod.fst).Nodup := by
      simp only [List.map_cons, List.nodup_cons] at hnd
      exact hnd.2
    have hgr : ∀ e ∈ rest, goodVal e.2 :=
      fun e he => hg e (List.mem_cons_of_mem _ he)
    unfold formDataToObject reappend
    rw [List.flatMap_cons, List.foldl_append,
      entry_build k fv (hg _ (List.mem_cons_self _ _)),
      foldl_cons_ne _ _ _ _
        (fun p hp => by
          intro hpk
          exact hk (hpk ▸ fst_mem_of_mem_reappend rest p hp))]
    have ih2 := ih hndr hgr
    unfold formDataToObject reappend at ih2
    rw [ih2]

/-- C4: `formDataToObject` iterates the form-body pairs in insertion order
and produces a mapping in which every key's entry is exactly `mkEntry` of
the ordered list of that key's values — absent keys have no entry, a key
appearing exactly once maps to its scalar string value, a key appearing
more than once maps to the ordered array of its values in append order
(two occurrences giving the two-element array `[previous, value]`, later
occurrences appended) — and whose keys appear in first-occurrence order. -/
theorem formDataToObject_spec (pairs : List (String × String)) (k : String) :
    getKey (formDataToObject pairs) k = mkEntry (valuesOf pairs k)
    ∧ (formDataToObject pairs).map Prod.fst = firstKeys (pairs.map Prod.fst) := by
  constructor
  · rw [formDataToObject, getKey_foldl]
    exact extendEntry_none _
  · rw [formDataToObject, keys_foldl]
    simp

/-- C5: `formDataToObject` is order-preserving and idempotent under
re-flattening of its own output structure: re-flattening a form body that
re-appends the output's entries (`reappend` — scalars once, array elements
in order) yields the same mapping; a key repeated twice yields a
two-element array, a key repeated three times yields a three-element array
in append order, and the empty body yields the empty mapping. -/
theorem formDataToObject_idempotent (pairs : List (String × String))
    (k v1 v2 v3 : String) :
    formDataToObject (reappend (formDataToObject pairs)) = formDataToObject pairs
    ∧ formDataToObject [(k, v1), (k, v2)] = [(k, FormVal.seq [v1, v2])]
    ∧ formDataToObject [(k, v1), (k, v2), (k, v3)]
        = [(k, FormVal.seq [v1, v2, v3])]
    ∧ formDataToObject ([] : List (String × String)) = [] := by
  refine ⟨?_, ?_, ?_, rfl⟩
  · have h := invariant_foldl pairs [] (by simp) (by simp)
    exact refold _ h.1 h.2
  · simp only [formDataToObject, List.foldl_cons, List.foldl_nil]
    rw [formStep_nil, formStep_head_scalar]
  · simp only [formDataToObject, List.foldl_cons, List.foldl_nil]
    rw [formStep_nil, formStep_head_scalar, formStep_head_seq]
    rfl
